import Mathlib

/-!
Verification development for the redis-timeseries storage engine.

The repository ships only its Python test suite (`src/src/tests/test_module.py`)
and a traffic-simulation client; the engine itself (a compiled Redis module) is
not part of the source tree.  The definitions below are therefore a shallow
embedding modelled from the specification (`spec.md`), with the repository's
test suite as the authority wherever the specification's prose is internally
inconsistent.  Timestamps are natural numbers, sample values are rationals
(exact stand-ins for the engine's 64-bit floats on the decimal-valued data the
tests exercise); value-to-string rendering is treated as external presentation.

One deliberate modelling decision, recorded here once: spec section 4.3 states
that a compaction rule writes a bucket into the destination only when the
bucket closes, but the repository's tests (`test_downsampling_rules`,
`test_agg_min` .. `test_agg_range`, `test_rdb_aggregation_context`,
`test_compaction_rules`) and the spec's own section 8 scenarios 2-4 final
results all require the running aggregate of the still-open bucket to be
upserted into the destination on every source sample.  The model follows the
tests: `onSample` writes the running aggregate eagerly.
-/

namespace TSDB

/-- Error kinds surfaced to the client, from spec section 7. -/
inductive Err where
  | badTimestamp
  | noSuchSeries
  | noSuchRule
  | ruleExists
  | dstAlreadyDerived
  | cyclicRule
  | unknownAggregator
  | badArgument
  | invalidSelector
deriving DecidableEq, Repr

/-- Decidable equality of command results, used to evaluate the concrete
scenarios. -/
instance {e a : Type} [DecidableEq e] [DecidableEq a] : DecidableEq (Except e a)
  | .error x, .error y =>
      match decEq x y with
      | isTrue h => isTrue (by rw [h])
      | isFalse h => isFalse (fun hh => h (by cases hh; rfl))
  | .error _, .ok _ => isFalse (fun hh => Except.noConfusion hh)
  | .ok _, .error _ => isFalse (fun hh => Except.noConfusion hh)
  | .ok x, .ok y =>
      match decEq x y with
      | isTrue h => isTrue (by rw [h])
      | isFalse h => isFalse (fun hh => h (by cases hh; rfl))

/-- Modelled from the spec: the eight supported aggregator kinds (section 4.3). -/
inductive Aggregator where
  | avg
  | sum
  | min
  | max
  | count
  | first
  | last
  | range
deriving DecidableEq, Repr

/-- Numeric identifier used when serializing an aggregator (section 4.6). -/
def aggId : Aggregator → Nat
  | .avg => 0
  | .sum => 1
  | .min => 2
  | .max => 3
  | .count => 4
  | .first => 5
  | .last => 6
  | .range => 7

/-- Inverse of `aggId`, used by restore. -/
def aggOfId : Nat → Option Aggregator
  | 0 => some .avg
  | 1 => some .sum
  | 2 => some .min
  | 3 => some .max
  | 4 => some .count
  | 5 => some .first
  | 6 => some .last
  | 7 => some .range
  | _ => none

/-- Rational operations spelled out on the normalized (num, den)
representation so that concrete scenarios evaluate inside the kernel; the
lemmas `qAdd_eq`, `qSub_eq`, `qMin_eq`, `qMax_eq` and `qDivNat_eq` below prove
them equal to the standard operations on the rationals. -/
def qAdd (a b : ℚ) : ℚ := mkRat (a.num * b.den + b.num * a.den) (a.den * b.den)

/-- Rational subtraction on the normalized representation. -/
def qSub (a b : ℚ) : ℚ := mkRat (a.num * b.den - b.num * a.den) (a.den * b.den)

/-- Rational minimum via the primitive comparison. -/
def qMin (a b : ℚ) : ℚ := if Rat.blt b a then b else a

/-- Rational maximum via the primitive comparison. -/
def qMax (a b : ℚ) : ℚ := if Rat.blt a b then b else a

/-- Division of a rational by a natural number (0 maps to 0, matching the
division-by-zero convention of the rationals). -/
def qDivNat (a : ℚ) (c : Nat) : ℚ := mkRat a.num (a.den * c)

/-- Modelled from the spec: per-aggregator accumulator state (table in section
4.3).  `FIRST`'s set-flag is implicit in the presence of the state. -/
inductive AggState where
  | avgS (sum : ℚ) (count : Nat)
  | sumS (sum : ℚ)
  | minS (m : ℚ)
  | maxS (m : ℚ)
  | countS (count : Nat)
  | firstS (v : ℚ)
  | lastS (v : ℚ)
  | rangeS (mn mx : ℚ)
deriving DecidableEq, Repr

/-- Modelled from the spec: folding one more sample value into an accumulator. -/
def AggState.fold : AggState → ℚ → AggState
  | .avgS s c, v => .avgS (qAdd s v) (c + 1)
  | .sumS s, v => .sumS (qAdd s v)
  | .minS m, v => .minS (qMin m v)
  | .maxS m, v => .maxS (qMax m v)
  | .countS c, _ => .countS (c + 1)
  | .firstS w, _ => .firstS w
  | .lastS _, v => .lastS v
  | .rangeS a b, v => .rangeS (qMin a v) (qMax b v)

/-- Modelled from the spec: seeding an accumulator with the first value of a
bucket. -/
def aggSeed : Aggregator → ℚ → AggState
  | .avg, v => .avgS v 1
  | .sum, v => .sumS v
  | .min, v => .minS v
  | .max, v => .maxS v
  | .count, _ => .countS 1
  | .first, v => .firstS v
  | .last, v => .lastS v
  | .range, v => .rangeS v v

/-- Modelled from the spec: the finalize column of the aggregator table. -/
def AggState.finalize : AggState → ℚ
  | .avgS s c => qDivNat s c
  | .sumS s => s
  | .minS m => m
  | .maxS m => m
  | .countS c => (c : ℚ)
  | .firstS v => v
  | .lastS v => v
  | .rangeS a b => qSub b a

/-- Bucket key of a timestamp: `t - t % B`, i.e. `floor(t / B) * B`
(sections 4.2 and 4.3). -/
def bucket (B t : Nat) : Nat := t - t % B

/-- Modelled from the spec: a compaction rule (sourceKey is implicit: rules are
stored on their source series).  Carries the persistent aggregation context of
the open bucket: `none` while uninitialized. -/
structure Rule where
  destKey : String
  agg : Aggregator
  bucketSize : Nat
  ctx : Option (Nat × AggState)
deriving DecidableEq, Repr

/-- Modelled from the spec: a series (section 3).  Samples are kept flat and in
timestamp order; the chunk partition is derived (all chunks except the last are
full, so the flat list together with `maxSamplesPerChunk` determines it). -/
structure Series where
  labels : List (String × String)
  retentionSecs : Nat
  maxSamplesPerChunk : Nat
  samples : List (Nat × ℚ)
  rules : List Rule
deriving DecidableEq, Repr

/-- Timestamp of the last sample, 0 when the series is empty. -/
def lastTs (s : Series) : Nat :=
  match s.samples.getLast? with
  | none => 0
  | some p => p.1

/-- Chunk partition of a flat sample list; the first argument is fuel (always
instantiated with the list length, which bounds the recursion). -/
def chunksOfAux (cap : Nat) : Nat → List (Nat × ℚ) → List (List (Nat × ℚ))
  | _, [] => []
  | 0, l => [l]
  | fuel + 1, x :: xs => (x :: xs.take (cap - 1)) :: chunksOfAux cap fuel (xs.drop (cap - 1))

/-- Partition a sample list into chunks of at most `cap` samples, all but the
last full (section 3). -/
def chunksOf (cap : Nat) (l : List (Nat × ℚ)) : List (List (Nat × ℚ)) :=
  chunksOfAux cap l.length l

/-- Concatenation of a list of chunks back into the flat sample list. -/
def myJoin (ls : List (List (Nat × ℚ))) : List (Nat × ℚ) :=
  ls.foldr (fun a b => a ++ b) []

/-- Chunk count as reported by INFO; a fresh series owns one (empty) chunk. -/
def chunkCount (s : Series) : Nat :=
  Max.max 1 (chunksOf s.maxSamplesPerChunk s.samples).length

/-- Last timestamp stored in a chunk (0 for an empty chunk). -/
def chunkLastTs (c : List (Nat × ℚ)) : Nat :=
  match c.getLast? with
  | none => 0
  | some p => p.1

/-- Modelled from the spec: retention at chunk granularity (section 4.1) -
after an append, leading chunks whose last timestamp is strictly below
`lastTimestamp - retentionSecs` are dropped; retention 0 means infinite. -/
def applyRetention (s : Series) : Series :=
  if s.retentionSecs = 0 then s
  else
    { s with samples :=
        myJoin ((chunksOf s.maxSamplesPerChunk s.samples).dropWhile
          (fun c => decide (chunkLastTs c < lastTs s - s.retentionSecs))) }

/-- Modelled from the spec: `append(t, v)` (section 4.1) - requires
`t > lastTimestamp` (or an empty series), then writes the sample and applies
retention.  Rule fan-out happens at the engine level. -/
def seriesAppend (s : Series) (t : Nat) (v : ℚ) : Except Err Series :=
  match s.samples.getLast? with
  | none => .ok (applyRetention { s with samples := [(t, v)] })
  | some p =>
      if t ≤ p.1 then .error .badTimestamp
      else .ok (applyRetention { s with samples := s.samples ++ [(t, v)] })

/-- Write into a destination series at a bucket-aligned timestamp: append when
the timestamp is beyond the last sample, overwrite the last sample's value when
it is equal (the same-timestamp update of the destination's open bucket). -/
def upsertList (l : List (Nat × ℚ)) (t : Nat) (v : ℚ) : List (Nat × ℚ) :=
  match l.getLast? with
  | none => [(t, v)]
  | some p =>
      if p.1 < t then l ++ [(t, v)]
      else if p.1 = t then l.dropLast ++ [(t, v)]
      else l

/-- Destination write of a compaction rule, going through the series' normal
storage path (retention included). -/
def destWrite (s : Series) (t : Nat) (v : ℚ) : Series :=
  applyRetention { s with samples := upsertList s.samples t v }

/-- Modelled from the spec: `onSample(t, v)` of a compaction rule
(section 4.3), with the eager destination write mandated by the repository's
tests: the accumulator for the open bucket is updated (or re-seeded when the
sample opens a new bucket) and its current finalized value is upserted into the
destination at the open bucket's start. -/
def onSample (A : Aggregator) (B : Nat) (p : Option (Nat × AggState) × Series)
    (t : Nat) (v : ℚ) : Option (Nat × AggState) × Series :=
  let nb := bucket B t
  match p.1 with
  | none =>
      let st := aggSeed A v
      (some (nb, st), destWrite p.2 nb st.finalize)
  | some (bs, st0) =>
      if nb = bs then
        let st := st0.fold v
        (some (bs, st), destWrite p.2 bs st.finalize)
      else
        let st := aggSeed A v
        (some (nb, st), destWrite p.2 nb st.finalize)

/-- Modelled from the spec: the engine is a registry of series keyed by name,
kept in insertion order (section 3); the label index is derived from it. -/
structure Engine where
  series : List (String × Series)
deriving DecidableEq, Repr

/-- First series registered under a key. -/
def lookupKey (l : List (String × Series)) (k : String) : Option Series :=
  match l with
  | [] => none
  | p :: rest => if p.1 = k then some p.2 else lookupKey rest k

/-- Replace the series stored under a key (no-op when the key is absent). -/
def updateKey (l : List (String × Series)) (k : String) (s : Series) :
    List (String × Series) :=
  l.map (fun p => if p.1 = k then (k, s) else p)

/-- Fresh series with the given creation options. -/
def mkSeries (labels : List (String × String)) (ret cap : Nat) : Series :=
  { labels := labels, retentionSecs := ret, maxSamplesPerChunk := cap,
    samples := [], rules := [] }

/-- The empty engine. -/
def emptyEngine : Engine := { series := [] }

/-- Modelled from the spec: `TS.CREATE` - registers a fresh series at the end
of the insertion order; fails on an existing key. -/
def engineCreate (e : Engine) (key : String) (labels : List (String × String))
    (ret cap : Nat) : Except Err Engine :=
  match lookupKey e.series key with
  | some _ => .error .badArgument
  | none => .ok { series := e.series ++ [(key, mkSeries labels ret cap)] }

/-- Modelled from the spec: `TS.CREATERULE src dst A B` (section 4.3) - fails
`NoSuchSeries` when either endpoint is missing, `RuleExists` when `src` already
has a rule to `dst`, `DstAlreadyDerived` when `dst` is already some rule's
destination, `CyclicRule` when `src` is itself a destination; otherwise
attaches the rule with an uninitialized aggregation context. -/
def engineCreateRule (e : Engine) (src dst : String) (A : Aggregator) (B : Nat) :
    Except Err Engine :=
  match lookupKey e.series src with
  | none => .error .noSuchSeries
  | some s =>
      match lookupKey e.series dst with
      | none => .error .noSuchSeries
      | some _ =>
          if s.rules.any (fun r => decide (r.destKey = dst)) then .error .ruleExists
          else if e.series.any (fun p => p.2.rules.any (fun r => decide (r.destKey = dst))) then
            .error .dstAlreadyDerived
          else if e.series.any (fun p => p.2.rules.any (fun r => decide (r.destKey = src))) then
            .error .cyclicRule
          else
            let s2 : Series := { s with rules := s.rules ++ [⟨dst, A, B, none⟩] }
            .ok { series := updateKey e.series src s2 }

/-- Modelled from the spec: `TS.ADD` on an existing key (section 4.1): append
to the source, then fan out to each outgoing rule in order; a rule whose
destination series no longer exists is skipped (dangling rules are tolerated,
section 3).  Auto-creation of an absent key is modelled by `engineCreate`
followed by `engineAdd`. -/
def engineAdd (e : Engine) (key : String) (t : Nat) (v : ℚ) : Except Err Engine :=
  match lookupKey e.series key with
  | none => .error .noSuchSeries
  | some s =>
      match seriesAppend s t v with
      | .error er => .error er
      | .ok s1 =>
          let base := updateKey e.series key s1
          let fanned := s1.rules.foldl
            (fun (acc : List (String × Series) × List Rule) r =>
              match lookupKey acc.1 r.destKey with
              | none => (acc.1, acc.2 ++ [r])
              | some d =>
                  let q := onSample r.agg r.bucketSize (r.ctx, d) t v
                  (updateKey acc.1 r.destKey q.2,
                   acc.2 ++ [⟨r.destKey, r.agg, r.bucketSize, q.1⟩]))
            (base, [])
          .ok { series := updateKey fanned.1 key { s1 with rules := fanned.2 } }

/-- Sequence of `TS.ADD`s to one key. -/
def addAll (e : Engine) (key : String) : List (Nat × ℚ) → Except Err Engine
  | [] => .ok e
  | x :: xs =>
      match engineAdd e key x.1 x.2 with
      | .error er => .error er
      | .ok e2 => addAll e2 key xs

/-- Remove a key from the engine.  Modelled from the spec: the engine tolerates
dangling destination references, so rules held by other series are left in
place and are skipped at append time (sections 3 and 4.1). -/
def engineDelete (e : Engine) (key : String) : Engine :=
  { series := e.series.filter (fun p => decide (p.1 ≠ key)) }

/-- Modelled from the spec: `incrBy`/`decrBy` with an optional reset bucket
(section 4.1); `now` is the injected wall clock.  With a reset bucket the
current bucket start is `floor(now / resetBucket) * resetBucket`: append
`(bucketStart, delta)` when the series is empty or strictly older, otherwise
add `delta` into the last sample's value.  Without a reset bucket the
overwrite-or-append decision compares `lastTimestamp` with `now` itself. -/
def incrBy (s : Series) (delta : ℚ) (resetBucket : Option Nat) (now : Nat) : Series :=
  match resetBucket with
  | some rb =>
      let bs := bucket rb now
      match s.samples.getLast? with
      | none => applyRetention { s with samples := [(bs, delta)] }
      | some p =>
          if p.1 < bs then applyRetention { s with samples := s.samples ++ [(bs, delta)] }
          else { s with samples := s.samples.dropLast ++ [(p.1, qAdd p.2 delta)] }
  | none =>
      match s.samples.getLast? with
      | none => applyRetention { s with samples := [(now, delta)] }
      | some p =>
          if p.1 = now then { s with samples := s.samples.dropLast ++ [(p.1, qAdd p.2 delta)] }
          else if p.1 < now then applyRetention { s with samples := s.samples ++ [(now, delta)] }
          else s

/-- Modelled from the spec: `range(series, from, to)` (section 4.2) - the
samples with `from ≤ t ≤ to` in order (the chunk-skipping walk is a traversal
optimization with the same result). -/
def rangeQ (s : Series) (lo hi : Nat) : List (Nat × ℚ) :=
  s.samples.filter (fun p => decide (lo ≤ p.1) && decide (p.1 ≤ hi))

/-- One step of grouping samples into runs of equal bucket keys:
either extend the current (last) group or open a new one. -/
def gstep (B : Nat) (gs : List (Nat × List ℚ)) (tv : Nat × ℚ) : List (Nat × List ℚ) :=
  match gs.getLast? with
  | none => [(bucket B tv.1, [tv.2])]
  | some g =>
      if bucket B tv.1 = g.1 then gs.dropLast ++ [(g.1, g.2 ++ [tv.2])]
      else gs ++ [(bucket B tv.1, [tv.2])]

/-- Group a sample list into consecutive runs sharing a bucket key, keeping the
values of each run in order.  On a timestamp-sorted list this is exactly the
per-bucket partition. -/
def groupConsec (B : Nat) (l : List (Nat × ℚ)) : List (Nat × List ℚ) :=
  l.foldl (gstep B) []

/-- Accumulator state reached by seeding an aggregator with the first value of
a run and folding the rest; `none` for an empty run. -/
def stateOfRun (A : Aggregator) : List ℚ → Option AggState
  | [] => none
  | v :: vs => some (vs.foldl AggState.fold (aggSeed A v))

/-- Aggregate of one run of values (0 for an empty run, which never occurs in
a group produced by `groupConsec`). -/
def aggOfRun (A : Aggregator) (vs : List ℚ) : ℚ :=
  match stateOfRun A vs with
  | none => 0
  | some st => st.finalize

/-- Declarative form of bucketized aggregation: one output sample per bucket
run, keyed by the bucket start and carrying the aggregate of the run. -/
def bucketAggs (A : Aggregator) (B : Nat) (l : List (Nat × ℚ)) : List (Nat × ℚ) :=
  (groupConsec B l).map (fun g => (g.1, aggOfRun A g.2))

/-- Aggregation context corresponding to the last (open) bucket run of a
sample list: its bucket start and accumulator state. -/
def ctxOf (A : Aggregator) (B : Nat) (l : List (Nat × ℚ)) : Option (Nat × AggState) :=
  (groupConsec B l).getLast?.bind (fun g => (stateOfRun A g.2).map (fun st => (g.1, st)))

/-- One step of the query-time aggregation walk: continue the current bucket's
accumulator, or emit the finished bucket and seed the next one. -/
def qstep (A : Aggregator) (B : Nat) (acc : List (Nat × ℚ) × Option (Nat × AggState))
    (tv : Nat × ℚ) : List (Nat × ℚ) × Option (Nat × AggState) :=
  match acc.2 with
  | none => (acc.1, some (bucket B tv.1, aggSeed A tv.2))
  | some (k, st) =>
      if bucket B tv.1 = k then (acc.1, some (k, st.fold tv.2))
      else (acc.1 ++ [(k, st.finalize)], some (bucket B tv.1, aggSeed A tv.2))

/-- Modelled from the spec: `rangeAggregated` (section 4.2) - walk the samples
of the range in order with a fresh per-bucket accumulator, emitting a bucket's
aggregate when the walk leaves it, and flushing the final open bucket at the
end (query-time aggregation uses no rule context). -/
def rangeAggregated (s : Series) (lo hi : Nat) (A : Aggregator) (B : Nat) :
    List (Nat × ℚ) :=
  let r := (rangeQ s lo hi).foldl (qstep A B) ([], none)
  match r.2 with
  | none => r.1
  | some (k, st) => r.1 ++ [(k, st.finalize)]

/-- Modelled from the spec: atomic label predicates of a selector
(section 4.4): `k=v`, `k!=v` (present and different), `k=` (absent),
`k!=` (present with any value). -/
inductive Pred where
  | eqv (k v : String)
  | nev (k v : String)
  | absent (k : String)
  | present (k : String)
deriving DecidableEq, Repr

/-- Truth of one predicate against a series' label list. -/
def matchesPred (s : Series) : Pred → Bool
  | .eqv k v =>
      match s.labels.lookup k with
      | some v2 => decide (v2 = v)
      | none => false
  | .nev k v =>
      match s.labels.lookup k with
      | some v2 => decide (v2 ≠ v)
      | none => false
  | .absent k =>
      match s.labels.lookup k with
      | some _ => false
      | none => true
  | .present k =>
      match s.labels.lookup k with
      | some _ => true
      | none => false

/-- Truth of a whole selector (a conjunction) against one series. -/
def matchesAll (s : Series) (sel : List Pred) : Bool :=
  sel.all (matchesPred s)

/-- The positive-value predicates `k=v` of a selector. -/
def positives (sel : List Pred) : List (String × String) :=
  sel.filterMap (fun p =>
    match p with
    | .eqv k v => some (k, v)
    | _ => none)

/-- The remaining (negative / existence) predicates of a selector. -/
def nonPositives (sel : List Pred) : List Pred :=
  sel.filter (fun p =>
    match p with
    | .eqv _ _ => false
    | _ => true)

/-- Modelled from the spec: the label index lookup for `k=v` - the keys of the
series carrying that label pair, in insertion order (section 3; the index is
maintained synchronously with series creation and deletion, so it is derived
here from the registry). -/
def indexGet (e : Engine) (k v : String) : List String :=
  (e.series.filter (fun p => matchesPred p.2 (.eqv k v))).map Prod.fst

/-- Modelled from the spec: `TS.QUERYINDEX` evaluation (section 4.4) - fail
`InvalidSelector` without a positive-value predicate; otherwise intersect the
index sets of all `k=v` predicates and filter the intersection by the remaining
predicates, returning keys in insertion order. -/
def queryIndex (e : Engine) (sel : List Pred) : Except Err (List String) :=
  match positives sel with
  | [] => .error .invalidSelector
  | kv :: kvs =>
      let base := kvs.foldl
        (fun acc kv2 => acc.filter (fun key => decide (key ∈ indexGet e kv2.1 kv2.2)))
        (indexGet e kv.1 kv.2)
      .ok (base.filter (fun key =>
        (nonPositives sel).all (fun p =>
          match lookupKey e.series key with
          | some s => matchesPred s p
          | none => false)))

/-- Modelled from the spec: `TS.MRANGE` (section 4.4) - per matching series (in
insertion order) the tuple of key, labels and range result, aggregated when an
aggregation is requested. -/
def mrange (e : Engine) (lo hi : Nat) (aggOpt : Option (Aggregator × Nat))
    (sel : List Pred) :
    Except Err (List (String × List (String × String) × List (Nat × ℚ))) :=
  match queryIndex e sel with
  | .error er => .error er
  | .ok keys => .ok (keys.filterMap (fun k =>
      (lookupKey e.series k).map (fun s =>
        (k, s.labels,
          match aggOpt with
          | none => rangeQ s lo hi
          | some ab => rangeAggregated s lo hi ab.1 ab.2))))

/-- Modelled from the spec: the serialized blob a series contributes to a
snapshot (section 4.6), as a token stream; each token stands for one encoded
field (numbers, float values, key strings). -/
inductive Tok where
  | n (x : Nat)
  | q (x : ℚ)
  | s (x : String)
deriving DecidableEq, Repr

/-- Encoded label pair. -/
def encLabel (p : String × String) : List Tok := [.s p.1, .s p.2]

/-- Decoder for one label pair. -/
def decLabel : List Tok → Option ((String × String) × List Tok)
  | .s k :: .s v :: r => some ((k, v), r)
  | _ => none

/-- Encoded sample record (section 4.5's `(t, v)` record). -/
def encSample (p : Nat × ℚ) : List Tok := [.n p.1, .q p.2]

/-- Decoder for one sample record. -/
def decSample : List Tok → Option ((Nat × ℚ) × List Tok)
  | .n t :: .q v :: r => some ((t, v), r)
  | _ => none

/-- Concatenated encodings of a list's elements. -/
def encMany (enc : α → List Tok) (l : List α) : List Tok :=
  l.foldr (fun x acc => enc x ++ acc) []

/-- Decode a known number of elements, returning them with the unread rest. -/
def decMany (dec : List Tok → Option (α × List Tok)) :
    Nat → List Tok → Option (List α × List Tok)
  | 0, r => some ([], r)
  | k + 1, r =>
      match dec r with
      | none => none
      | some (x, r2) =>
          match decMany dec k r2 with
          | none => none
          | some (xs, r3) => some (x :: xs, r3)

/-- Count-prefixed encoding of a list (the `count + elements` layout of
section 4.6). -/
def encCounted (enc : α → List Tok) (l : List α) : List Tok :=
  .n l.length :: encMany enc l

/-- Decoder matching `encCounted`. -/
def decCounted (dec : List Tok → Option (α × List Tok)) :
    List Tok → Option (List α × List Tok)
  | .n k :: r => decMany dec k r
  | _ => none

/-- Modelled from the spec: aggregator-specific accumulator fields of a
serialized AggContext (section 4.6), tagged with the accumulator's variant. -/
def encState : AggState → List Tok
  | .avgS s c => [.n 0, .q s, .n c]
  | .sumS s => [.n 1, .q s]
  | .minS m => [.n 2, .q m]
  | .maxS m => [.n 3, .q m]
  | .countS c => [.n 4, .n c]
  | .firstS v => [.n 5, .q v]
  | .lastS v => [.n 6, .q v]
  | .rangeS a b => [.n 7, .q a, .q b]

/-- Decoder matching `encState`. -/
def decState : List Tok → Option (AggState × List Tok)
  | .n 0 :: .q s :: .n c :: r => some (.avgS s c, r)
  | .n 1 :: .q s :: r => some (.sumS s, r)
  | .n 2 :: .q m :: r => some (.minS m, r)
  | .n 3 :: .q m :: r => some (.maxS m, r)
  | .n 4 :: .n c :: r => some (.countS c, r)
  | .n 5 :: .q v :: r => some (.firstS v, r)
  | .n 6 :: .q v :: r => some (.lastS v, r)
  | .n 7 :: .q a :: .q b :: r => some (.rangeS a b, r)
  | _ => none

/-- Modelled from the spec: serialized AggContext - an initialized-flag, then
`bucketStart` and the accumulator fields (section 4.6). -/
def encCtx : Option (Nat × AggState) → List Tok
  | none => [.n 0]
  | some (bs, st) => .n 1 :: .n bs :: encState st

/-- Decoder matching `encCtx`. -/
def decCtx : List Tok → Option (Option (Nat × AggState) × List Tok)
  | .n 0 :: r => some (none, r)
  | .n 1 :: .n bs :: r =>
      match decState r with
      | none => none
      | some (st, r2) => some (some (bs, st), r2)
  | _ => none

/-- Modelled from the spec: serialized rule - destKey, aggregator id,
bucketSize, AggContext (section 4.6). -/
def encRule (r : Rule) : List Tok :=
  .s r.destKey :: .n (aggId r.agg) :: .n r.bucketSize :: encCtx r.ctx

/-- Decoder matching `encRule`. -/
def decRule : List Tok → Option (Rule × List Tok)
  | .s d :: .n aid :: .n b :: r =>
      match aggOfId aid with
      | none => none
      | some A =>
          match decCtx r with
          | none => none
          | some (c, r2) => some (⟨d, A, b, c⟩, r2)
  | _ => none

/-- Modelled from the spec: the full series blob (section 4.6) - a version
tag, then labels (count + pairs), retentionSecs, maxSamplesPerChunk, the
chunks (count, then per chunk count + samples), then the outgoing rules. -/
def dumpSeries (s : Series) : List Tok :=
  [Tok.n 0] ++ encCounted encLabel s.labels ++
    [Tok.n s.retentionSecs, Tok.n s.maxSamplesPerChunk] ++
      encCounted (encCounted encSample) (chunksOf s.maxSamplesPerChunk s.samples) ++
        encCounted encRule s.rules

/-- Decoder for a series blob, returning the series and the unread rest. -/
def decodeSeries (toks : List Tok) : Option (Series × List Tok) :=
  match toks with
  | .n 0 :: r0 =>
      match decCounted decLabel r0 with
      | none => none
      | some (labels, r1) =>
          match r1 with
          | .n ret :: .n cap :: r2 =>
              match decCounted (decCounted decSample) r2 with
              | none => none
              | some (chunks, r3) =>
                  match decCounted decRule r3 with
                  | none => none
                  | some (rules, r4) =>
                      some (⟨labels, ret, cap, myJoin chunks, rules⟩, r4)
          | _ => none
  | _ => none

/-- Restore of one series from a whole blob. -/
def restoreSeries (toks : List Tok) : Option Series :=
  match decodeSeries toks with
  | some (s, []) => some s
  | _ => none

/-- DUMP of one key of the engine. -/
def engineDump (e : Engine) (key : String) : Except Err (List Tok) :=
  match lookupKey e.series key with
  | none => .error .noSuchSeries
  | some s => .ok (dumpSeries s)

/-- RESTORE of one key into the engine (registered at the end of the insertion
order).  Rules reference their destination by key, so restore order does not
matter (section 4.6). -/
def engineRestore (e : Engine) (key : String) (toks : List Tok) : Except Err Engine :=
  match lookupKey e.series key with
  | some _ => .error .badArgument
  | none =>
      match restoreSeries toks with
      | none => .error .badArgument
      | some s => .ok { series := e.series ++ [(key, s)] }

/-- The fields reported by `TS.INFO` (section 6). -/
structure Info where
  lastTimestamp : Nat
  retentionSecs : Nat
  chunkCount : Nat
  maxSamplesPerChunk : Nat
  labels : List (String × String)
  rules : List (String × Nat × Aggregator)
deriving DecidableEq, Repr

/-- Modelled from the spec: `TS.INFO` of a series; rules are reported as
(destKey, bucketSize, aggregator), the aggregator being echoed by name. -/
def infoOf (s : Series) : Info :=
  { lastTimestamp := lastTs s
    retentionSecs := s.retentionSecs
    chunkCount := chunkCount s
    maxSamplesPerChunk := s.maxSamplesPerChunk
    labels := s.labels
    rules := s.rules.map (fun r => (r.destKey, r.bucketSize, r.agg)) }

/-- Minimal engine exercising one compaction rule: a source series with a
single rule (carrying context `ctx`) and its destination series, both with
default options. -/
def ruleEngine (src dst : String) (A : Aggregator) (B : Nat)
    (ctx : Option (Nat × AggState)) (ss ds : List (Nat × ℚ)) : Engine :=
  { series :=
    [ (src, { labels := [], retentionSecs := 0, maxSamplesPerChunk := 360,
              samples := ss, rules := [⟨dst, A, B, ctx⟩] })
    , (dst, { labels := [], retentionSecs := 0, maxSamplesPerChunk := 360,
              samples := ds, rules := [] }) ] }

/-- The series of `test_range_with_agg_query`: 1500 samples of value 5 at
consecutive timestamps from 1488823384. -/
def series1500 : Series :=
  { labels := [], retentionSecs := 0, maxSamplesPerChunk := 360,
    samples := (List.range 1500).map (fun i => (1488823384 + i, (5 : ℚ))),
    rules := [] }

/-- The four labelled series of `test_label_index`, in insertion order. -/
def eng4 : Engine :=
  { series :=
    [ ("tester1", mkSeries [("name", "bob"), ("class", "middle"), ("generation", "x")] 0 360)
    , ("tester2", mkSeries [("name", "rudy"), ("class", "junior"), ("generation", "x")] 0 360)
    , ("tester3", mkSeries [("name", "fabi"), ("class", "top"), ("generation", "x"), ("x", "2")] 0 360)
    , ("tester4", mkSeries [("name", "anybody"), ("class", "top"), ("type", "noone"), ("x", "2"), ("z", "3")] 0 360) ] }

/-- The end-to-end schedule of `test_rdb_aggregation_context`: create source
and two destinations, attach an AVG and a MIN rule with bucket size 3, append
(3,0),(4,1),(5,2),(6,3), dump all three keys, restore them into a fresh
engine, append (7,4), and read both destinations over [3, 7]. -/
def pipelineC2 : Except Err (List (Nat × ℚ) × List (Nat × ℚ)) := do
  let e ← engineCreate emptyEngine "tester" [] 0 360
  let e ← engineCreate e "tester_agg_avg_3" [] 0 360
  let e ← engineCreate e "tester_agg_min_3" [] 0 360
  let e ← engineCreateRule e "tester" "tester_agg_avg_3" .avg 3
  let e ← engineCreateRule e "tester" "tester_agg_min_3" .min 3
  let e ← addAll e "tester" [(3, 0), (4, 1), (5, 2), (6, 3)]
  let bt ← engineDump e "tester"
  let ba ← engineDump e "tester_agg_avg_3"
  let bm ← engineDump e "tester_agg_min_3"
  let e2 ← engineRestore emptyEngine "tester" bt
  let e2 ← engineRestore e2 "tester_agg_avg_3" ba
  let e2 ← engineRestore e2 "tester_agg_min_3" bm
  let e2 ← addAll e2 "tester" [(7, 4)]
  match lookupKey e2.series "tester_agg_avg_3", lookupKey e2.series "tester_agg_min_3" with
  | some a, some m => .ok (rangeQ a 3 7, rangeQ m 3 7)
  | _, _ => .error .noSuchSeries

/-- The first half of spec section 8 scenario 2: an AVG rule with bucket size
3, appends (3,0),(4,1),(5,2),(6,3), then RANGE of the destination over [3, 6]. -/
def pipelineC1 : Except Err (List (Nat × ℚ)) := do
  let e ← engineCreate emptyEngine "t" [] 0 360
  let e ← engineCreate e "ta" [] 0 360
  let e ← engineCreateRule e "t" "ta" .avg 3
  let e ← addAll e "t" [(3, 0), (4, 1), (5, 2), (6, 3)]
  match lookupKey e.series "ta" with
  | some a => .ok (rangeQ a 3 6)
  | _ => .error .noSuchSeries

/-! Basic lemmas. -/

theorem applyRetention_zero (s : Series) (h : s.retentionSecs = 0) :
    applyRetention s = s := by
  rw [applyRetention, if_pos h]

theorem bucket_le_bucket (B : Nat) {t t2 : Nat} (h : t ≤ t2) :
    bucket B t ≤ bucket B t2 := by
  have h1 := Nat.div_add_mod t B
  have h2 := Nat.div_add_mod t2 B
  have h3 : B * (t / B) ≤ B * (t2 / B) :=
    Nat.mul_le_mul_left B (Nat.div_le_div_right h)
  unfold bucket
  omega

theorem myJoin_cons (c : List (Nat × ℚ)) (cs : List (List (Nat × ℚ))) :
    myJoin (c :: cs) = c ++ myJoin cs := rfl

theorem myJoin_chunksOfAux (cap : Nat) :
    ∀ (fuel : Nat) (l : List (Nat × ℚ)), myJoin (chunksOfAux cap fuel l) = l := by
  intro fuel
  induction fuel with
  | zero =>
      intro l
      cases l with
      | nil => rfl
      | cons x xs => simp [chunksOfAux, myJoin]
  | succ k ih =>
      intro l
      cases l with
      | nil => rfl
      | cons x xs =>
          rw [chunksOfAux, myJoin_cons, ih]
          simp [List.take_append_drop]

theorem myJoin_chunksOf (cap : Nat) (l : List (Nat × ℚ)) :
    myJoin (chunksOf cap l) = l :=
  myJoin_chunksOfAux cap l.length l

/-! Snapshot encoding round-trip lemmas. -/

theorem decLabel_enc (p : String × String) (r : List Tok) :
    decLabel (encLabel p ++ r) = some (p, r) := rfl

theorem decSample_enc (p : Nat × ℚ) (r : List Tok) :
    decSample (encSample p ++ r) = some (p, r) := rfl

theorem decMany_encMany {α : Type} (dec : List Tok → Option (α × List Tok))
    (enc : α → List Tok) (h : ∀ x r, dec (enc x ++ r) = some (x, r)) :
    ∀ (l : List α) (r : List Tok),
      decMany dec l.length (encMany enc l ++ r) = some (l, r) := by
  intro l
  induction l with
  | nil => intro r; rfl
  | cons x xs ih =>
      intro r
      have h2 : encMany enc (x :: xs) ++ r = enc x ++ (encMany enc xs ++ r) := by
        simp [encMany, List.append_assoc]
      simp only [List.length_cons, h2, decMany, h, ih]

theorem decCounted_enc {α : Type} (dec : List Tok → Option (α × List Tok))
    (enc : α → List Tok) (h : ∀ x r, dec (enc x ++ r) = some (x, r))
    (l : List α) (r : List Tok) :
    decCounted dec (encCounted enc l ++ r) = some (l, r) := by
  have : encCounted enc l ++ r = .n l.length :: (encMany enc l ++ r) := by
    simp [encCounted]
  rw [this, decCounted, decMany_encMany dec enc h]

theorem decState_enc (st : AggState) (r : List Tok) :
    decState (encState st ++ r) = some (st, r) := by
  cases st <;> rfl

theorem decCtx_enc (c : Option (Nat × AggState)) (r : List Tok) :
    decCtx (encCtx c ++ r) = some (c, r) := by
  cases c with
  | none => rfl
  | some p =>
      cases p with
      | mk bs st =>
          show decCtx (.n 1 :: .n bs :: (encState st ++ r)) = _
          rw [decCtx, decState_enc]

theorem aggOfId_aggId (A : Aggregator) : aggOfId (aggId A) = some A := by
  cases A <;> rfl

theorem decRule_enc (ru : Rule) (r : List Tok) :
    decRule (encRule ru ++ r) = some (ru, r) := by
  show decRule (.s ru.destKey :: .n (aggId ru.agg) :: .n ru.bucketSize :: (encCtx ru.ctx ++ r)) = _
  cases ru with
  | mk d A b c =>
      cases A <;> simp [decRule, aggOfId, aggId, decCtx_enc]

theorem decChunk_enc (c : List (Nat × ℚ)) (r : List Tok) :
    decCounted decSample (encCounted encSample c ++ r) = some (c, r) :=
  decCounted_enc decSample encSample decSample_enc c r

theorem decodeSeries_dump (s : Series) (r : List Tok) :
    decodeSeries (dumpSeries s ++ r) = some (s, r) := by
  have hd : dumpSeries s ++ r =
      .n 0 :: (encCounted encLabel s.labels ++
        (.n s.retentionSecs :: .n s.maxSamplesPerChunk ::
          (encCounted (encCounted encSample) (chunksOf s.maxSamplesPerChunk s.samples) ++
            (encCounted encRule s.rules ++ r)))) := by
    simp [dumpSeries, List.append_assoc]
  rw [hd]
  simp only [decodeSeries,
    decCounted_enc decLabel encLabel decLabel_enc,
    decCounted_enc (decCounted decSample) (encCounted encSample) decChunk_enc,
    decCounted_enc decRule encRule decRule_enc,
    myJoin_chunksOf]

theorem restoreSeries_dump (s : Series) :
    restoreSeries (dumpSeries s) = some s := by
  have := decodeSeries_dump s []
  rw [List.append_nil] at this
  rw [restoreSeries, this]

/-! Bucket-run grouping lemmas. -/

theorem groupConsec_concat (B : Nat) (l : List (Nat × ℚ)) (x : Nat × ℚ) :
    groupConsec B (l ++ [x]) = gstep B (groupConsec B l) x := by
  simp [groupConsec, List.foldl_append]

/-- Shape of the grouping of a list: empty for the empty list, otherwise a
last group keyed by the bucket of the last sample and holding a nonempty run. -/
theorem group_inv (B : Nat) (l : List (Nat × ℚ)) :
    (l = [] ∧ groupConsec B l = []) ∨
      (∃ p gs k vs, l.getLast? = some p ∧ groupConsec B l = gs ++ [(k, vs)] ∧
        k = bucket B p.1 ∧ vs ≠ []) := by
  induction l using List.reverseRecOn with
  | nil => exact Or.inl ⟨rfl, rfl⟩
  | append_singleton l x ih =>
      right
      rw [groupConsec_concat]
      rcases ih with ⟨hl, hg⟩ | ⟨p, gs, k, vs, hp, hg, hk, hvs⟩
      · refine ⟨x, [], bucket B x.1, [x.2], ?_, ?_, rfl, by simp⟩
        · simp [List.getLast?_concat]
        · rw [hg]; rfl
      · rw [hg, gstep, List.getLast?_concat]
        by_cases hb : bucket B x.1 = k
        · refine ⟨x, gs, k, vs ++ [x.2], rfl, ?_, ?_, by simp⟩
          · simp [hb, List.dropLast_concat]
          · rw [hb]
        · refine ⟨x, gs ++ [(k, vs)], bucket B x.1, [x.2], rfl, ?_, rfl, by simp⟩
          simp [hb]

theorem stateOfRun_of_ne_nil (A : Aggregator) (vs : List ℚ) (h : vs ≠ []) :
    ∃ st, stateOfRun A vs = some st := by
  cases vs with
  | nil => exact absurd rfl h
  | cons v rest => exact ⟨_, rfl⟩

theorem stateOfRun_concat (A : Aggregator) (vs : List ℚ) (v : ℚ) (st : AggState)
    (h : stateOfRun A vs = some st) :
    stateOfRun A (vs ++ [v]) = some (st.fold v) := by
  cases vs with
  | nil => simp [stateOfRun] at h
  | cons w ws =>
      simp only [stateOfRun, Option.some.injEq] at h
      simp only [List.cons_append, stateOfRun, List.foldl_append, h, List.foldl]

theorem aggOfRun_of_state (A : Aggregator) (vs : List ℚ) (st : AggState)
    (h : stateOfRun A vs = some st) : aggOfRun A vs = st.finalize := by
  rw [aggOfRun, h]

/-! The compaction step: eagerly upserting the running aggregate keeps the
destination's samples equal to the per-run bucket aggregates of the source
samples processed so far, and the rule context equal to the open run's state. -/

theorem onSample_step (A : Aggregator) (B : Nat) (l : List (Nat × ℚ)) (x : Nat × ℚ)
    (d : Series) (hd : d.samples = bucketAggs A B l) (hret : d.retentionSecs = 0)
    (hlt : ∀ p ∈ l.getLast?, p.1 < x.1) :
    onSample A B (ctxOf A B l, d) x.1 x.2 =
      (ctxOf A B (l ++ [x]), { d with samples := bucketAggs A B (l ++ [x]) }) := by
  rcases group_inv B l with ⟨hl, hg⟩ | ⟨p, gs, k, vs, hp, hg, hk, hvs⟩
  · subst hl
    have hctx : ctxOf A B ([] : List (Nat × ℚ)) = none := rfl
    have hgx : groupConsec B ([] ++ [x]) = [(bucket B x.1, [x.2])] := by
      rw [groupConsec_concat]; rfl
    have hctx2 : ctxOf A B ([] ++ [x]) = some (bucket B x.1, aggSeed A x.2) := by
      rw [ctxOf, hgx]; rfl
    have hba : bucketAggs A B ([] ++ [x]) = [(bucket B x.1, (aggSeed A x.2).finalize)] := by
      rw [bucketAggs, hgx]; rfl
    rw [onSample]
    simp only [hctx, hctx2, hba]
    rw [destWrite]
    have hup : upsertList d.samples (bucket B x.1) (aggSeed A x.2).finalize =
        [(bucket B x.1, (aggSeed A x.2).finalize)] := by
      rw [hd]; rfl
    rw [hup, applyRetention_zero _ (by simpa using hret)]
  · obtain ⟨st, hst⟩ := stateOfRun_of_ne_nil A vs hvs
    have hctx : ctxOf A B l = some (k, st) := by
      rw [ctxOf, hg, List.getLast?_concat]
      simp [hst]
    have hple : p.1 < x.1 := hlt p (by rw [hp]; rfl)
    have hkle : k ≤ bucket B x.1 := hk ▸ bucket_le_bucket B (Nat.le_of_lt hple)
    have hdlast : d.samples.getLast? = some (k, aggOfRun A vs) := by
      rw [hd, bucketAggs, hg, List.map_append]
      simp [List.getLast?_concat]
    have hd2 : d.samples = List.map (fun g => (g.1, aggOfRun A g.2)) gs ++ [(k, aggOfRun A vs)] := by
      rw [hd, bucketAggs, hg, List.map_append]; rfl
    by_cases hb : bucket B x.1 = k
    · have hgx : groupConsec B (l ++ [x]) = gs ++ [(k, vs ++ [x.2])] := by
        rw [groupConsec_concat, hg, gstep, List.getLast?_concat]
        simp [hb, List.dropLast_concat]
      have hst2 : stateOfRun A (vs ++ [x.2]) = some (st.fold x.2) :=
        stateOfRun_concat A vs x.2 st hst
      have hctx2 : ctxOf A B (l ++ [x]) = some (k, st.fold x.2) := by
        rw [ctxOf, hgx, List.getLast?_concat]
        simp [hst2]
      have hba : bucketAggs A B (l ++ [x]) =
          (gs.map (fun g => (g.1, aggOfRun A g.2))) ++ [(k, (st.fold x.2).finalize)] := by
        rw [bucketAggs, hgx, List.map_append]
        simp [aggOfRun_of_state A _ _ hst2]
      have hup : upsertList d.samples k (AggState.fold st x.2).finalize =
          (gs.map (fun g => (g.1, aggOfRun A g.2))) ++ [(k, (st.fold x.2).finalize)] := by
        simp only [upsertList, hdlast, lt_self_iff_false, if_false, if_true, ite_true, ite_false]
        rw [hd2, List.dropLast_concat]
      rw [onSample]
      simp only [hctx, hb, hctx2, destWrite, hup]
      rw [applyRetention_zero _ (by simpa using hret), hba, if_pos trivial]
    · have hklt : k < bucket B x.1 := Nat.lt_of_le_of_ne hkle (fun h2 => hb h2.symm)
      have hgx : groupConsec B (l ++ [x]) =
          (gs ++ [(k, vs)]) ++ [(bucket B x.1, [x.2])] := by
        rw [groupConsec_concat, hg, gstep, List.getLast?_concat]
        simp [hb]
      have hctx2 : ctxOf A B (l ++ [x]) = some (bucket B x.1, aggSeed A x.2) := by
        rw [ctxOf, hgx, List.getLast?_concat]
        rfl
      have hba : bucketAggs A B (l ++ [x]) =
          bucketAggs A B l ++ [(bucket B x.1, (aggSeed A x.2).finalize)] := by
        rw [bucketAggs, hgx, List.map_append, bucketAggs, hg]
        rfl
      have hup : upsertList d.samples (bucket B x.1) (aggSeed A x.2).finalize =
          bucketAggs A B l ++ [(bucket B x.1, (aggSeed A x.2).finalize)] := by
        simp only [upsertList, hdlast]
        rw [if_pos hklt, hd]
      rw [onSample]
      simp only [hctx, hctx2, destWrite, hup, hba]
      rw [if_neg hb, applyRetention_zero]
      exact hret

theorem addAll_concat (e : Engine) (key : String) (l : List (Nat × ℚ)) (x : Nat × ℚ) :
    addAll e key (l ++ [x]) =
      match addAll e key l with
      | .error er => .error er
      | .ok e2 => engineAdd e2 key x.1 x.2 := by
  induction l generalizing e with
  | nil =>
      show addAll e key [x] = _
      simp only [addAll]
      cases engineAdd e key x.1 x.2 with
      | error er => rfl
      | ok e2 => rfl
  | cons y ys ih =>
      rw [List.cons_append]
      simp only [addAll]
      cases engineAdd e key y.1 y.2 with
      | error er => rfl
      | ok e2 => exact ih e2

theorem seriesAppend_mono (S : Series) (x : Nat × ℚ)
    (hlt : ∀ p ∈ S.samples.getLast?, p.1 < x.1) (hret : S.retentionSecs = 0) :
    seriesAppend S x.1 x.2 = .ok { S with samples := S.samples ++ [x] } := by
  cases hgl : S.samples.getLast? with
  | none =>
      have hnil : S.samples = [] := List.getLast?_eq_none_iff.mp hgl
      simp only [seriesAppend, hgl]
      rw [applyRetention_zero]
      · simp [hnil]
      · exact hret
  | some p =>
      have hp : p.1 < x.1 := hlt p (by rw [hgl]; rfl)
      simp only [seriesAppend, hgl, if_neg (Nat.not_le.mpr hp)]
      rw [applyRetention_zero]
      exact hret

theorem engine_run (src dst : String) (A : Aggregator) (B : Nat) (hne : src ≠ dst)
    (l : List (Nat × ℚ)) (hc : List.Chain' (fun a b : Nat × ℚ => a.1 < b.1) l) :
    addAll (ruleEngine src dst A B none [] []) src l =
      .ok (ruleEngine src dst A B (ctxOf A B l) l (bucketAggs A B l)) := by
  induction l using List.reverseRecOn with
  | nil => rfl
  | append_singleton l x ih =>
      obtain ⟨hcl, -, hlast⟩ := List.chain'_append.mp hc
      rw [addAll_concat, ih hcl]
      show engineAdd (ruleEngine src dst A B (ctxOf A B l) l (bucketAggs A B l)) src x.1 x.2 = _
      have hlt : ∀ p ∈ l.getLast?, p.1 < x.1 := fun p hp => hlast p hp x rfl
      have happ := seriesAppend_mono
        { labels := [], retentionSecs := 0, maxSamplesPerChunk := 360,
          samples := l, rules := [⟨dst, A, B, ctxOf A B l⟩] } x hlt rfl
      have hstep := onSample_step A B l x
        { labels := [], retentionSecs := 0, maxSamplesPerChunk := 360,
          samples := bucketAggs A B l, rules := [] } rfl rfl hlt
      have hds : dst ≠ src := Ne.symm hne
      simp only [engineAdd, ruleEngine, lookupKey, updateKey, List.map, List.foldl,
        eq_self_iff_true, if_true, if_false, ite_true, ite_false,
        if_neg hne, if_neg hds, happ, hstep]
      rfl

/-! Characterization of query-time aggregation. -/

theorem qfold_inv (A : Aggregator) (B : Nat) (l : List (Nat × ℚ)) :
    l.foldl (qstep A B) ([], none) = ((bucketAggs A B l).dropLast, ctxOf A B l) := by
  induction l using List.reverseRecOn with
  | nil => rfl
  | append_singleton l x ih =>
      rw [List.foldl_append, ih]
      simp only [List.foldl]
      rcases group_inv B l with ⟨hl, hg⟩ | ⟨p, gs, k, vs, hp, hg, hk, hvs⟩
      · subst hl
        have hgx : groupConsec B ([] ++ [x]) = [(bucket B x.1, [x.2])] := by
          rw [groupConsec_concat]; rfl
        have hctx2 : ctxOf A B ([] ++ [x]) = some (bucket B x.1, aggSeed A x.2) := by
          rw [ctxOf, hgx]; rfl
        have hba : bucketAggs A B ([] ++ [x]) = [(bucket B x.1, (aggSeed A x.2).finalize)] := by
          rw [bucketAggs, hgx]; rfl
        rw [qstep, hctx2, hba]
        rfl
      · obtain ⟨st, hst⟩ := stateOfRun_of_ne_nil A vs hvs
        have hctx : ctxOf A B l = some (k, st) := by
          rw [ctxOf, hg, List.getLast?_concat]
          simp [hst]
        have hba0 : bucketAggs A B l =
            List.map (fun g => (g.1, aggOfRun A g.2)) gs ++ [(k, aggOfRun A vs)] := by
          rw [bucketAggs, hg, List.map_append]; rfl
        by_cases hb : bucket B x.1 = k
        · have hgx : groupConsec B (l ++ [x]) = gs ++ [(k, vs ++ [x.2])] := by
            rw [groupConsec_concat, hg, gstep, List.getLast?_concat]
            simp [hb, List.dropLast_concat]
          have hst2 : stateOfRun A (vs ++ [x.2]) = some (st.fold x.2) :=
            stateOfRun_concat A vs x.2 st hst
          have hctx2 : ctxOf A B (l ++ [x]) = some (k, st.fold x.2) := by
            rw [ctxOf, hgx, List.getLast?_concat]
            simp [hst2]
          have hba : bucketAggs A B (l ++ [x]) =
              List.map (fun g => (g.1, aggOfRun A g.2)) gs ++ [(k, (st.fold x.2).finalize)] := by
            rw [bucketAggs, hgx, List.map_append]
            simp [aggOfRun_of_state A _ _ hst2]
          rw [qstep, hctx, hctx2, hba, hba0]
          simp [hb, List.dropLast_concat]
        · have hgx : groupConsec B (l ++ [x]) =
              (gs ++ [(k, vs)]) ++ [(bucket B x.1, [x.2])] := by
            rw [groupConsec_concat, hg, gstep, List.getLast?_concat]
            simp [hb]
          have hctx2 : ctxOf A B (l ++ [x]) = some (bucket B x.1, aggSeed A x.2) := by
            rw [ctxOf, hgx, List.getLast?_concat]
            rfl
          have hba : bucketAggs A B (l ++ [x]) =
              bucketAggs A B l ++ [(bucket B x.1, (aggSeed A x.2).finalize)] := by
            rw [bucketAggs, hgx, List.map_append, bucketAggs, hg]
            rfl
          rw [qstep, hctx, hctx2, hba, hba0]
          simp [hb, List.dropLast_concat, aggOfRun_of_state A _ _ hst]

theorem rangeAggregated_eq_bucketAggs (s : Series) (lo hi : Nat) (A : Aggregator)
    (B : Nat) : rangeAggregated s lo hi A B = bucketAggs A B (rangeQ s lo hi) := by
  rw [rangeAggregated]
  simp only [qfold_inv]
  rcases group_inv B (rangeQ s lo hi) with ⟨hl, hg⟩ | ⟨p, gs, k, vs, hp, hg, hk, hvs⟩
  · rw [hl]
    rfl
  · obtain ⟨st, hst⟩ := stateOfRun_of_ne_nil A vs hvs
    have hctx : ctxOf A B (rangeQ s lo hi) = some (k, st) := by
      rw [ctxOf, hg, List.getLast?_concat]
      simp [hst]
    have hba0 : bucketAggs A B (rangeQ s lo hi) =
        List.map (fun g => (g.1, aggOfRun A g.2)) gs ++ [(k, aggOfRun A vs)] := by
      rw [bucketAggs, hg, List.map_append]; rfl
    rw [hctx, hba0]
    simp [List.dropLast_concat, aggOfRun_of_state A _ _ hst]

/-! Bucket keys of the aggregates are strictly increasing on sorted input. -/

theorem groupConsec_keys_chain (B : Nat) (l : List (Nat × ℚ))
    (hc : List.Chain' (fun a b : Nat × ℚ => a.1 < b.1) l) :
    List.Chain' (fun g h : Nat × List ℚ => g.1 < h.1) (groupConsec B l) := by
  induction l using List.reverseRecOn with
  | nil => exact List.chain'_nil
  | append_singleton l x ih =>
      obtain ⟨hcl, -, hlast⟩ := List.chain'_append.mp hc
      rw [groupConsec_concat]
      rcases group_inv B l with ⟨hl, hg⟩ | ⟨p, gs, k, vs, hp, hg, hk, hvs⟩
      · rw [hg]
        simp [gstep]
      · rw [hg, gstep, List.getLast?_concat]
        have hplt : p.1 < x.1 := hlast p (by rw [hp]; rfl) x rfl
        have hkle : k ≤ bucket B x.1 := hk ▸ bucket_le_bucket B (Nat.le_of_lt hplt)
        have ihg := hg ▸ ih hcl
        by_cases hb : bucket B x.1 = k
        · simp only [hb, if_pos rfl, List.dropLast_concat]
          obtain ⟨h1, h2, h3⟩ := List.chain'_append.mp ihg
          refine List.chain'_append.mpr ⟨h1, List.chain'_singleton _, ?_⟩
          intro g hgl y hy
          cases hy
          exact h3 g hgl (k, vs) rfl
        · have hklt : k < bucket B x.1 := Nat.lt_of_le_of_ne hkle (fun h2 => hb h2.symm)
          simp only [hb, if_false, ite_false]
          refine List.chain'_append.mpr ⟨ihg, List.chain'_singleton _, ?_⟩
          intro g hgl y hy
          rw [List.getLast?_concat] at hgl
          cases hgl
          cases hy
          exact hklt

theorem bucketAggs_keys_chain (A : Aggregator) (B : Nat) (l : List (Nat × ℚ))
    (hc : List.Chain' (fun a b : Nat × ℚ => a.1 < b.1) l) :
    List.Chain' (fun a b : Nat × ℚ => a.1 < b.1) (bucketAggs A B l) := by
  rw [bucketAggs, List.chain'_map]
  exact groupConsec_keys_chain B l hc

theorem bucketAggs_last_key (A : Aggregator) (B : Nat) (l : List (Nat × ℚ))
    (x : Nat × ℚ) :
    ∃ w, (bucketAggs A B (l ++ [x])).getLast? = some (bucket B x.1, w) := by
  rcases group_inv B (l ++ [x]) with ⟨hl, -⟩ | ⟨p, gs, k, vs, hp, hg, hk, -⟩
  · exact absurd hl (by simp)
  · have hpx : p = x := by
      rw [List.getLast?_concat] at hp
      exact (Option.some_inj.mp hp).symm
    refine ⟨aggOfRun A vs, ?_⟩
    rw [bucketAggs, hg, List.map_append]
    simp [List.getLast?_concat, hk, hpx]

/-! Label-index selector lemmas. -/

theorem keys_nodup_eq {L : List (String × Series)} (hnd : (L.map Prod.fst).Nodup)
    {p q : String × Series} (hp : p ∈ L) (hq : q ∈ L) (h : p.1 = q.1) : p = q := by
  induction L with
  | nil => cases hp
  | cons a l ih =>
      rw [List.map_cons, List.nodup_cons] at hnd
      rcases List.mem_cons.mp hp with hpa | hpl <;> rcases List.mem_cons.mp hq with hqa | hql
      · rw [hpa, hqa]
      · subst hpa
        have hqm : q.1 ∈ l.map Prod.fst := List.mem_map.mpr ⟨q, hql, rfl⟩
        rw [← h] at hqm
        exact absurd hqm hnd.1
      · subst hqa
        have hpm : p.1 ∈ l.map Prod.fst := List.mem_map.mpr ⟨p, hpl, rfl⟩
        rw [h] at hpm
        exact absurd hpm hnd.1
      · exact ih hnd.2 hpl hql

theorem mem_filter_keys_iff {L : List (String × Series)} (hnd : (L.map Prod.fst).Nodup)
    (Q : String × Series → Bool) {p : String × Series} (hp : p ∈ L) :
    p.1 ∈ (L.filter Q).map Prod.fst ↔ Q p = true := by
  constructor
  · intro h
    obtain ⟨q, hqf, hq1⟩ := List.mem_map.mp h
    have hqL : q ∈ L := List.mem_of_mem_filter hqf
    have hqp : q = p := keys_nodup_eq hnd hqL hp hq1
    subst hqp
    exact (List.mem_filter.mp hqf).2
  · intro h
    exact List.mem_map.mpr ⟨p, List.mem_filter.mpr ⟨hp, h⟩, rfl⟩

theorem lookupKey_of_mem {L : List (String × Series)} (hnd : (L.map Prod.fst).Nodup)
    {p : String × Series} (hp : p ∈ L) : lookupKey L p.1 = some p.2 := by
  induction L with
  | nil => cases hp
  | cons a l ih =>
      rw [List.map_cons, List.nodup_cons] at hnd
      rcases List.mem_cons.mp hp with hpa | hpl
      · subst hpa
        rw [lookupKey, if_pos rfl]
      · have hne : a.1 ≠ p.1 := fun h2 =>
          hnd.1 (h2 ▸ List.mem_map.mpr ⟨p, hpl, rfl⟩)
        rw [lookupKey, if_neg hne]
        exact ih hnd.2 hpl

theorem filter_map_fst_filter (L : List (String × Series)) (P : String × Series → Bool)
    (F : String → Bool) :
    ((L.filter P).map Prod.fst).filter F =
      (L.filter (fun p => P p && F p.1)).map Prod.fst := by
  rw [List.filter_map, List.filter_filter]
  apply congrArg
  apply List.filter_congr
  intro x hx
  simp [Bool.and_comm]

theorem filterMap_eq_map_of {α β : Type} (l : List α) (h : α → Option β) (fn : α → β)
    (hl : ∀ x ∈ l, h x = some (fn x)) : l.filterMap h = l.map fn := by
  induction l with
  | nil => rfl
  | cons a l ih =>
      rw [List.filterMap_cons, hl a (List.mem_cons_self a l), List.map_cons,
        ih (fun x hx => hl x (List.mem_cons_of_mem a hx))]

theorem inter_fold (e : Engine) (hnd : (e.series.map Prod.fst).Nodup)
    (kvs : List (String × String)) :
    ∀ P : String × Series → Bool,
      kvs.foldl (fun acc kv2 => acc.filter (fun key => decide (key ∈ indexGet e kv2.1 kv2.2)))
          ((e.series.filter P).map Prod.fst) =
        (e.series.filter (fun p => P p &&
          kvs.all (fun kv => matchesPred p.2 (.eqv kv.1 kv.2)))).map Prod.fst := by
  induction kvs with
  | nil =>
      intro P
      simp only [List.foldl_nil, List.all_nil, Bool.and_true]
  | cons kv kvs ih =>
      intro P
      rw [List.foldl_cons]
      have hstep : ((e.series.filter P).map Prod.fst).filter
            (fun key => decide (key ∈ indexGet e kv.1 kv.2)) =
          (e.series.filter (fun p => P p && matchesPred p.2 (.eqv kv.1 kv.2))).map Prod.fst := by
        rw [filter_map_fst_filter]
        apply congrArg
        apply List.filter_congr
        intro p hp
        cases hq : matchesPred p.2 (.eqv kv.1 kv.2) with
        | false =>
            have hnm : ¬ (p.1 ∈ indexGet e kv.1 kv.2) := by
              intro hmem
              have h3 := (mem_filter_keys_iff hnd
                (fun q => matchesPred q.2 (.eqv kv.1 kv.2)) hp).mp hmem
              rw [hq] at h3
              cases h3
            simp [hnm, hq]
        | true =>
            have hmem : p.1 ∈ indexGet e kv.1 kv.2 :=
              (mem_filter_keys_iff hnd
                (fun q => matchesPred q.2 (.eqv kv.1 kv.2)) hp).mpr hq
            simp [hmem, hq]
      rw [hstep, ih]
      apply congrArg
      apply List.filter_congr
      intro p hp
      simp [Bool.and_assoc]

theorem matchesAll_cons (s : Series) (pr : Pred) (sel : List Pred) :
    matchesAll s (pr :: sel) = (matchesPred s pr && matchesAll s sel) := rfl

theorem positives_cons_eqv (k v : String) (sel : List Pred) :
    positives (.eqv k v :: sel) = (k, v) :: positives sel := rfl

theorem nonPositives_cons_eqv (k v : String) (sel : List Pred) :
    nonPositives (.eqv k v :: sel) = nonPositives sel := rfl

theorem matchesAll_split (s : Series) (sel : List Pred) :
    matchesAll s sel =
      ((positives sel).all (fun kv => matchesPred s (.eqv kv.1 kv.2)) &&
        (nonPositives sel).all (matchesPred s)) := by
  induction sel with
  | nil => rfl
  | cons pr sel ih =>
      cases pr with
      | eqv k v =>
          rw [matchesAll_cons, ih, positives_cons_eqv, nonPositives_cons_eqv, List.all_cons]
          simp [Bool.and_assoc]
      | nev k v =>
          rw [matchesAll_cons, ih,
            show positives (.nev k v :: sel) = positives sel from rfl,
            show nonPositives (.nev k v :: sel) = .nev k v :: nonPositives sel from rfl,
            List.all_cons]
          simp [Bool.and_left_comm]
      | absent k =>
          rw [matchesAll_cons, ih,
            show positives (.absent k :: sel) = positives sel from rfl,
            show nonPositives (.absent k :: sel) = .absent k :: nonPositives sel from rfl,
            List.all_cons]
          simp [Bool.and_left_comm]
      | present k =>
          rw [matchesAll_cons, ih,
            show positives (.present k :: sel) = positives sel from rfl,
            show nonPositives (.present k :: sel) = .present k :: nonPositives sel from rfl,
            List.all_cons]
          simp [Bool.and_left_comm]

theorem queryIndex_char (e : Engine) (sel : List Pred)
    (hnd : (e.series.map Prod.fst).Nodup)
    (kv : String × String) (kvs : List (String × String))
    (hpos : positives sel = kv :: kvs) :
    queryIndex e sel =
      .ok ((e.series.filter (fun p => matchesAll p.2 sel)).map Prod.fst) := by
  have h0 : queryIndex e sel =
      .ok ((kvs.foldl
        (fun acc kv2 => acc.filter (fun key => decide (key ∈ indexGet e kv2.1 kv2.2)))
        (indexGet e kv.1 kv.2)).filter (fun key =>
          (nonPositives sel).all (fun p =>
            match lookupKey e.series key with
            | some s => matchesPred s p
            | none => false))) := by
    rw [queryIndex, hpos]
  rw [h0]
  have h1 := inter_fold e hnd kvs (fun p => matchesPred p.2 (.eqv kv.1 kv.2))
  rw [show indexGet e kv.1 kv.2 =
      (e.series.filter (fun p => matchesPred p.2 (.eqv kv.1 kv.2))).map Prod.fst from rfl]
  rw [h1, filter_map_fst_filter]
  apply congrArg
  apply congrArg
  apply List.filter_congr
  intro p hp
  simp only [lookupKey_of_mem hnd hp]
  rw [matchesAll_split, hpos, List.all_cons]

theorem mrange_char (e : Engine) (sel : List Pred) (lo hi : Nat)
    (aggOpt : Option (Aggregator × Nat))
    (hnd : (e.series.map Prod.fst).Nodup)
    (kv : String × String) (kvs : List (String × String))
    (hpos : positives sel = kv :: kvs) :
    mrange e lo hi aggOpt sel =
      .ok ((e.series.filter (fun p => matchesAll p.2 sel)).map (fun p =>
        (p.1, p.2.labels,
          match aggOpt with
          | none => rangeQ p.2 lo hi
          | some ab => rangeAggregated p.2 lo hi ab.1 ab.2))) := by
  simp only [mrange, queryIndex_char e sel hnd kv kvs hpos]
  rw [List.filterMap_map]
  rw [filterMap_eq_map_of]
  intro p hp
  have hpL : p ∈ e.series := List.mem_of_mem_filter hp
  show (lookupKey e.series p.1).map _ = _
  rw [lookupKey_of_mem hnd hpL]
  cases aggOpt <;> rfl


theorem qAdd_eq (a b : ℚ) : qAdd a b = a + b := by
  have ha : (a.den : ℚ) ≠ 0 := Nat.cast_ne_zero.mpr a.den_nz
  have hb : (b.den : ℚ) ≠ 0 := Nat.cast_ne_zero.mpr b.den_nz
  conv_rhs => rw [← Rat.num_div_den a, ← Rat.num_div_den b]
  rw [div_add_div _ _ ha hb, qAdd, Rat.mkRat_eq_div]
  push_cast
  ring_nf

theorem qSub_eq (a b : ℚ) : qSub a b = a - b := by
  have ha : (a.den : ℚ) ≠ 0 := Nat.cast_ne_zero.mpr a.den_nz
  have hb : (b.den : ℚ) ≠ 0 := Nat.cast_ne_zero.mpr b.den_nz
  conv_rhs => rw [← Rat.num_div_den a, ← Rat.num_div_den b]
  rw [div_sub_div _ _ ha hb, qSub, Rat.mkRat_eq_div]
  push_cast
  ring_nf

theorem qDivNat_eq (a : ℚ) (c : Nat) : qDivNat a c = a / (c : ℚ) := by
  conv_rhs => rw [← Rat.num_div_den a]
  rw [div_div, qDivNat, Rat.mkRat_eq_div]
  push_cast
  ring_nf

theorem qMin_eq (a b : ℚ) : qMin a b = Min.min a b := by
  rw [qMin]
  rcases le_or_lt a b with h | h
  · have hf : ¬ (Rat.blt b a = true) := not_lt.mpr h
    rw [if_neg hf, min_eq_left h]
  · have ht : Rat.blt b a = true := h
    rw [if_pos ht, min_eq_right (le_of_lt h)]

theorem qMax_eq (a b : ℚ) : qMax a b = Max.max a b := by
  rw [qMax]
  rcases le_or_lt b a with h | h
  · have hf : ¬ (Rat.blt a b = true) := not_lt.mpr h
    rw [if_neg hf, max_eq_left h]
  · have ht : Rat.blt a b = true := h
    rw [if_pos ht, max_eq_right (le_of_lt h)]

/-! Claim theorems. -/

/-- C3: snapshot round-trip - for every series, including an empty one and one
carrying outgoing compaction rules, restoring its dump reproduces it exactly:
the restored series is equal to the original, hence RANGE returns the same
samples and INFO reports the same lastTimestamp, retentionSecs, chunkCount,
maxSamplesPerChunk, labels and rules. -/
theorem claim_C3_snapshot_roundtrip (S : Series) :
    restoreSeries (dumpSeries S) = some S ∧
      (restoreSeries (dumpSeries S)).map infoOf = some (infoOf S) ∧
      ∀ lo hi, (restoreSeries (dumpSeries S)).map (fun s2 => rangeQ s2 lo hi) =
        some (rangeQ S lo hi) := by
  refine ⟨restoreSeries_dump S, ?_, ?_⟩
  · rw [restoreSeries_dump S]
    rfl
  · intro lo hi
    rw [restoreSeries_dump S]
    rfl

/-- C2: dumping and restoring a source series, its destinations and their rule
contexts mid-bucket preserves each rule's AggContext: for the schedule
(3,0),(4,1),(5,2),(6,3), dump/restore of all three keys, then (7,4), the AVG
bucket-3 destination reads [(3,1),(6,3.5)] and the MIN bucket-3 destination
reads [(3,0),(6,3)] over [3,7]. -/
theorem claim_C2_rdb_aggregation_context :
    pipelineC2 = .ok ([(3, 1), (6, mkRat 7 2)], [(3, 0), (6, 3)]) := by decide

/-- C1, counterexample: with an AVG rule of bucket size 3 and appends
(3,0),(4,1),(5,2),(6,3) - no source sample beyond the bucket [6,9) has
arrived - a RANGE of the destination over [3,6] already contains a sample for
the open bucket 6, so it is not the case that the destination holds only the
closed buckets. -/
theorem claim_C1_counterexample :
    pipelineC1 = .ok [(3, 1), (6, 3)] ∧ pipelineC1 ≠ .ok [(3, 1)] := by
  constructor
  · decide
  · decide

/-- C1, amended: after any strictly increasing append sequence to the source
of a compaction rule, the destination holds exactly one sample per bucket that
received at least one source sample - the still-open bucket included - in
strictly increasing bucket order, each carrying the aggregate of the source
samples received so far in that bucket; the rule context mirrors the open
run, and a RANGE over the destination is the corresponding filter of those
per-bucket samples (so the open bucket is visible as soon as it receives a
sample). -/
theorem claim_C1_amended (src dst : String) (A : Aggregator) (B : Nat)
    (hne : src ≠ dst) (l : List (Nat × ℚ))
    (hc : List.Chain' (fun a b : Nat × ℚ => a.1 < b.1) l) :
    addAll (ruleEngine src dst A B none [] []) src l =
      .ok (ruleEngine src dst A B (ctxOf A B l) l (bucketAggs A B l)) ∧
    List.Chain' (fun a b : Nat × ℚ => a.1 < b.1) (bucketAggs A B l) ∧
    ∀ lo hi, ∃ d : Series,
      lookupKey (ruleEngine src dst A B (ctxOf A B l) l (bucketAggs A B l)).series dst =
          some d ∧
        rangeQ d lo hi =
          (bucketAggs A B l).filter (fun p => decide (lo ≤ p.1) && decide (p.1 ≤ hi)) := by
  refine ⟨engine_run src dst A B hne l hc, bucketAggs_keys_chain A B l hc, ?_⟩
  intro lo hi
  have hlk : lookupKey (ruleEngine src dst A B (ctxOf A B l) l (bucketAggs A B l)).series dst =
      some { labels := [], retentionSecs := 0, maxSamplesPerChunk := 360,
             samples := bucketAggs A B l, rules := [] } := by
    simp [ruleEngine, lookupKey, hne]
  exact ⟨_, hlk, rfl⟩

/-- Witness for the amended C1 at the spec's own scenario: AVG rule, bucket
size 3, appends (3,0),(4,1),(5,2),(6,3). -/
theorem claim_C1_amended_witness :
    addAll (ruleEngine "t" "ta" .avg 3 none [] []) "t" [(3, 0), (4, 1), (5, 2), (6, 3)] =
      .ok (ruleEngine "t" "ta" .avg 3 (ctxOf .avg 3 [(3, 0), (4, 1), (5, 2), (6, 3)])
        [(3, 0), (4, 1), (5, 2), (6, 3)] (bucketAggs .avg 3 [(3, 0), (4, 1), (5, 2), (6, 3)])) :=
  (claim_C1_amended "t" "ta" .avg 3 (by decide) [(3, 0), (4, 1), (5, 2), (6, 3)]
    (by simp [List.chain'_cons])).1

/-- C10: after any strictly increasing append sequence ending in a sample with
timestamp `t`, the destination of a rule with bucket size B has
`lastTimestamp = t - t % B` - the start of the still-open bucket - and holds
one sample per bucket touched so far, the open bucket included, each carrying
the aggregate of the source samples received in it. -/
theorem claim_C10_open_bucket_visible (src dst : String) (A : Aggregator) (B : Nat)
    (hne : src ≠ dst) (l : List (Nat × ℚ)) (t : Nat) (v : ℚ)
    (hc : List.Chain' (fun a b : Nat × ℚ => a.1 < b.1) (l ++ [(t, v)])) :
    ∃ e2 d, addAll (ruleEngine src dst A B none [] []) src (l ++ [(t, v)]) = .ok e2 ∧
      lookupKey e2.series dst = some d ∧
      lastTs d = t - t % B ∧
      d.samples = bucketAggs A B (l ++ [(t, v)]) := by
  refine ⟨ruleEngine src dst A B (ctxOf A B (l ++ [(t, v)])) (l ++ [(t, v)])
      (bucketAggs A B (l ++ [(t, v)])),
    { labels := [], retentionSecs := 0, maxSamplesPerChunk := 360,
      samples := bucketAggs A B (l ++ [(t, v)]), rules := [] },
    engine_run src dst A B hne _ hc, ?_, ?_, rfl⟩
  · simp [ruleEngine, lookupKey, hne]
  · obtain ⟨w, hw⟩ := bucketAggs_last_key A B l (t, v)
    show lastTs _ = bucket B t
    rw [lastTs]
    simp only [hw]


/-- Witness for C10: a MAX rule with bucket size 10 over the appends
(10,31),(11,41),(21,59): the destination's lastTimestamp is 21 - 21 % 10 = 20,
the start of the open bucket. -/
theorem claim_C10_witness :
    ∃ e2 d, addAll (ruleEngine "tester" "tester_max_10" .max 10 none [] []) "tester"
        ([(10, 31), (11, 41)] ++ [(21, 59)]) = .ok e2 ∧
      lookupKey e2.series "tester_max_10" = some d ∧
      lastTs d = 21 - 21 % 10 ∧
      d.samples = bucketAggs .max 10 ([(10, 31), (11, 41)] ++ [(21, 59)]) :=
  claim_C10_open_bucket_visible "tester" "tester_max_10" .max 10 (by decide)
    [(10, 31), (11, 41)] 21 59 (by simp [List.chain'_cons])

set_option maxRecDepth 40000 in
/-- C4: query-time aggregated range - the streaming walk equals the
declarative per-bucket aggregation of the samples inside the range (one output
sample, keyed `floor(t / B) * B`, per bucket run holding at least one source
sample), its bucket keys are strictly increasing whenever the series' samples
are sorted, and on 1500 consecutive samples of value 5 from 1488823384 a COUNT
aggregation over 500-wide buckets returns exactly the four expected buckets. -/
theorem claim_C4_range_with_agg :
    (∀ (s : Series) (lo hi : Nat) (A : Aggregator) (B : Nat),
      rangeAggregated s lo hi A B = bucketAggs A B (rangeQ s lo hi)) ∧
    (∀ (s : Series) (lo hi : Nat) (A : Aggregator) (B : Nat),
      List.Chain' (fun a b : Nat × ℚ => a.1 < b.1) s.samples →
      List.Chain' (fun a b : Nat × ℚ => a.1 < b.1) (rangeAggregated s lo hi A B)) ∧
    rangeAggregated series1500 1488823384 (1488823384 + 1500) .count 500 =
      [(1488823000, 116), (1488823500, 500), (1488824000, 500), (1488824500, 384)] := by
  refine ⟨fun s lo hi A B => rangeAggregated_eq_bucketAggs s lo hi A B, ?_, ?_⟩
  · intro s lo hi A B hs
    rw [rangeAggregated_eq_bucketAggs]
    apply bucketAggs_keys_chain
    haveI : IsTrans (Nat × ℚ) (fun a b => a.1 < b.1) :=
      ⟨fun a b c h1 h2 => lt_trans h1 h2⟩
    have hpw : List.Pairwise (fun a b : Nat × ℚ => a.1 < b.1) s.samples :=
      List.chain'_iff_pairwise.mp hs
    exact List.chain'_iff_pairwise.mpr (hpw.filter _)
  · -- the 1500-sample COUNT scenario, evaluated bucket by bucket
    have hfilter : rangeQ series1500 1488823384 (1488823384 + 1500) =
        series1500.samples := by
      rw [rangeQ]
      apply List.filter_eq_self.mpr
      intro a ha
      simp only [series1500, List.mem_map, List.mem_range] at ha
      obtain ⟨i, hi, rfl⟩ := ha
      simp only [Bool.and_eq_true, decide_eq_true_eq]
      omega
    have hsamples : series1500.samples =
        (List.range' 1488823384 1500).map (fun t => (t, (5 : ℚ))) := by
      show (List.range 1500).map (fun i => (1488823384 + i, (5 : ℚ))) = _
      rw [List.range'_eq_map_range, List.map_map]
      have hfun : ((fun t => (t, (5 : ℚ))) ∘ fun x => 1488823384 + x) =
          (fun i => (1488823384 + i, (5 : ℚ))) := rfl
      rw [hfun]
    have h1 : List.range' 1488823384 116 ++ List.range' 1488823500 1384 =
        List.range' 1488823384 1500 := by
      have h := List.range'_append 1488823384 116 1384 1
      norm_num at h
      exact h
    have h2 : List.range' 1488823500 500 ++ List.range' 1488824000 884 =
        List.range' 1488823500 1384 := by
      have h := List.range'_append 1488823500 500 884 1
      norm_num at h
      exact h
    have h3 : List.range' 1488824000 500 ++ List.range' 1488824500 384 =
        List.range' 1488824000 884 := by
      have h := List.range'_append 1488824000 500 384 1
      norm_num at h
      exact h
    have d1 : ((List.range' 1488823384 116).map (fun t => (t, (5 : ℚ)))).foldl
        (qstep .count 500) ([], none) =
        ([], some (1488823000, AggState.countS 116)) := by decide
    have d2 : ((List.range' 1488823500 500).map (fun t => (t, (5 : ℚ)))).foldl
        (qstep .count 500) ([], some (1488823000, AggState.countS 116)) =
        ([(1488823000, 116)], some (1488823500, AggState.countS 500)) := by decide
    have d3 : ((List.range' 1488824000 500).map (fun t => (t, (5 : ℚ)))).foldl
        (qstep .count 500) ([(1488823000, 116)], some (1488823500, AggState.countS 500)) =
        ([(1488823000, 116), (1488823500, 500)],
          some (1488824000, AggState.countS 500)) := by decide
    have d4 : ((List.range' 1488824500 384).map (fun t => (t, (5 : ℚ)))).foldl
        (qstep .count 500)
        ([(1488823000, 116), (1488823500, 500)], some (1488824000, AggState.countS 500)) =
        ([(1488823000, 116), (1488823500, 500), (1488824000, 500)],
          some (1488824500, AggState.countS 384)) := by decide
    rw [rangeAggregated]
    simp only [hfilter, hsamples, ← h1, ← h2, ← h3, List.map_append, List.foldl_append,
      d1, d2, d3, d4]
    decide

/-- Witness for the sortedness conjunct of C4 on a small sorted series. -/
theorem claim_C4_witness :
    List.Chain' (fun a b : Nat × ℚ => a.1 < b.1)
      (rangeAggregated
        { labels := [], retentionSecs := 0, maxSamplesPerChunk := 360,
          samples := [(10, 31), (11, 41), (21, 59)], rules := [] } 10 50 .max 10) :=
  claim_C4_range_with_agg.2.1 _ 10 50 .max 10 (by simp [List.chain'_cons])

/-- C5: label-selector evaluation - with at least one positive predicate and
distinct keys, QUERYINDEX (intersection of the positive predicates' index
sets, then filtering by the remaining predicates) returns exactly the series
satisfying the whole conjunction, in insertion order, and MRANGE returns, per
such series in the same order, its key, labels and (optionally aggregated)
range. -/
theorem claim_C5_label_selection (e : Engine) (sel : List Pred) (lo hi : Nat)
    (aggOpt : Option (Aggregator × Nat))
    (hnd : (e.series.map Prod.fst).Nodup)
    (kv : String × String) (kvs : List (String × String))
    (hpos : positives sel = kv :: kvs) :
    queryIndex e sel =
      .ok ((e.series.filter (fun p => matchesAll p.2 sel)).map Prod.fst) ∧
    mrange e lo hi aggOpt sel =
      .ok ((e.series.filter (fun p => matchesAll p.2 sel)).map (fun p =>
        (p.1, p.2.labels,
          match aggOpt with
          | none => rangeQ p.2 lo hi
          | some ab => rangeAggregated p.2 lo hi ab.1 ab.2))) :=
  ⟨queryIndex_char e sel hnd kv kvs hpos,
    mrange_char e sel lo hi aggOpt hnd kv kvs hpos⟩

/-- Witness for C5: the four-series engine of `test_label_index` with the
selector generation=x, class!=middle. -/
theorem claim_C5_witness :
    queryIndex eng4 [.eqv "generation" "x", .nev "class" "middle"] =
      .ok ((eng4.series.filter
        (fun p => matchesAll p.2 [.eqv "generation" "x", .nev "class" "middle"])).map
          Prod.fst) ∧
    mrange eng4 0 100 none [.eqv "generation" "x", .nev "class" "middle"] =
      .ok ((eng4.series.filter
        (fun p => matchesAll p.2 [.eqv "generation" "x", .nev "class" "middle"])).map
          (fun p => (p.1, p.2.labels,
            match (none : Option (Aggregator × Nat)) with
            | none => rangeQ p.2 0 100
            | some ab => rangeAggregated p.2 0 100 ab.1 ab.2))) :=
  claim_C5_label_selection eng4 [.eqv "generation" "x", .nev "class" "middle"] 0 100 none
    (by decide) ("generation", "x") [] rfl

/-- C8: a selector with no positive-value predicate fails InvalidSelector,
while adding a positive `k=v` predicate to the same negative and existence
predicates makes QUERYINDEX succeed and return the matching series. -/
theorem claim_C8_invalid_selector (e : Engine) (sel : List Pred) :
    (positives sel = [] → queryIndex e sel = .error .invalidSelector) ∧
    (∀ k v, (e.series.map Prod.fst).Nodup →
      queryIndex e (.eqv k v :: sel) =
        .ok ((e.series.filter
          (fun p => matchesAll p.2 (.eqv k v :: sel))).map Prod.fst)) := by
  constructor
  · intro h
    rw [queryIndex, h]
  · intro k v hnd
    exact queryIndex_char e (.eqv k v :: sel) hnd (k, v) (positives sel) rfl

/-- Witness for C8: on the `test_label_index` engine, the selector z= x!=2
fails InvalidSelector, while z= x=2 (the same absence predicate plus a
positive one) succeeds. -/
theorem claim_C8_witness :
    queryIndex eng4 [.absent "z", .nev "x" "2"] = .error .invalidSelector ∧
    queryIndex eng4 (.eqv "x" "2" :: [.absent "z"]) =
      .ok ((eng4.series.filter
        (fun p => matchesAll p.2 (.eqv "x" "2" :: [.absent "z"]))).map Prod.fst) :=
  ⟨(claim_C8_invalid_selector eng4 [.absent "z", .nev "x" "2"]).1 rfl,
    (claim_C8_invalid_selector eng4 [.absent "z"]).2 "x" "2" (by decide)⟩

/-! Lemmas for the INCRBY reset-bucket claim. -/

theorem incrBy_empty (rb : Nat) (delta : ℚ) (s0 : Series) (now : Nat)
    (hs : s0.samples = []) (hret : s0.retentionSecs = 0) :
    (incrBy s0 delta (some rb) now).samples = [(bucket rb now, delta)] := by
  have hgl : s0.samples.getLast? = none := by rw [hs]; rfl
  simp only [incrBy, hgl]
  rw [applyRetention_zero]
  exact hret

theorem incrBy_same_window (rb : Nat) (delta : ℚ) (s0 : Series) (now w : Nat) (q : ℚ)
    (hs : s0.samples = [(w, q)]) (hb : bucket rb now = w) :
    (incrBy s0 delta (some rb) now).samples = [(w, qAdd q delta)] := by
  have hgl : s0.samples.getLast? = some (w, q) := by rw [hs]; rfl
  simp only [incrBy, hgl, hb]
  rw [if_neg (lt_irrefl w), hs]
  rfl

theorem incr_run (rb w : Nat) (delta : ℚ) :
    ∀ (nows : List Nat) (q : ℚ) (s0 : Series), s0.samples = [(w, q)] →
      (∀ x ∈ nows, bucket rb x = w) →
      (nows.foldl (fun s now => incrBy s delta (some rb) now) s0).samples =
        [(w, q + nows.length * delta)] := by
  intro nows
  induction nows with
  | nil =>
      intro q s0 hs _
      simpa using hs
  | cons n0 ns ih =>
      intro q s0 hs hw
      rw [List.foldl_cons]
      have hstep := incrBy_same_window rb delta s0 n0 w q hs
        (hw n0 (List.mem_cons_self n0 ns))
      have := ih (qAdd q delta) _ hstep (fun x hx => hw x (List.mem_cons_of_mem n0 hx))
      rw [this, qAdd_eq]
      have harith : q + delta + (ns.length : ℚ) * delta =
          q + ((ns.length : ℚ) + 1) * delta := by ring
      rw [harith, List.length_cons]
      push_cast
      ring_nf

/-- C6: TS.INCRBY with a RESET bucket on an empty series - every increment
whose wall-clock falls in the same window `floor(now / resetBucket) *
resetBucket` either appends `(bucketStart, delta)` to the empty series or adds
`delta` into the last sample, so n successive increments inside one window
leave exactly one sample `(alignedBucketStart, n * delta)`. -/
theorem claim_C6_incrby_reset (rb w : Nat) (delta : ℚ) (nows : List Nat)
    (hne : nows ≠ []) (hw : ∀ x ∈ nows, bucket rb x = w) :
    (nows.foldl (fun s now => incrBy s delta (some rb) now) (mkSeries [] 0 360)).samples =
      [(w, nows.length * delta)] := by
  cases nows with
  | nil => exact absurd rfl hne
  | cons n0 ns =>
      rw [List.foldl_cons]
      have h0 : (incrBy (mkSeries [] 0 360) delta (some rb) n0).samples =
          [(w, delta)] := by
        rw [incrBy_empty rb delta _ n0 rfl rfl, hw n0 (List.mem_cons_self n0 ns)]
      have := incr_run rb w delta ns delta _ h0
        (fun x hx => hw x (List.mem_cons_of_mem n0 hx))
      rw [this, List.length_cons]
      push_cast
      ring_nf

/-- Witness for C6: 1000 increments by 1 with RESET 10, all at wall-clock
second 1505 (window start 1500), leave the single sample (1500, 1000). -/
theorem claim_C6_witness :
    ((List.replicate 1000 1505).foldl (fun s now => incrBy s 1 (some 10) now)
      (mkSeries [] 0 360)).samples = [(1500, 1000)] := by
  have h := claim_C6_incrby_reset 10 1500 1 (List.replicate 1000 1505)
    (by
      intro h2
      have h3 := congrArg List.length h2
      rw [List.length_replicate, List.length_nil] at h3
      exact absurd h3 (by decide))
    (fun x hx => by rw [List.eq_of_mem_replicate hx]; decide)
  rw [List.length_replicate, Nat.cast_ofNat, mul_one] at h
  exact h

/-- C7: TS.CREATERULE fails NoSuchSeries when the destination series does not
exist, and fails RuleExists when the source already has a rule to the same
destination; in both cases the command returns an error, so no engine with a
new rule is produced. -/
theorem claim_C7_createrule_errors (e : Engine) (src dst : String)
    (A : Aggregator) (B : Nat) :
    (lookupKey e.series dst = none →
      engineCreateRule e src dst A B = .error .noSuchSeries) ∧
    (∀ s, lookupKey e.series src = some s →
      (∃ s2, lookupKey e.series dst = some s2) →
      s.rules.any (fun r => decide (r.destKey = dst)) = true →
      engineCreateRule e src dst A B = .error .ruleExists) := by
  constructor
  · intro hdst
    cases hsrc : lookupKey e.series src with
    | none => simp only [engineCreateRule, hsrc]
    | some s => simp only [engineCreateRule, hsrc, hdst]
  · intro s hsrc hdst hany
    obtain ⟨s2, hd⟩ := hdst
    simp only [engineCreateRule, hsrc, hd, hany, if_true]

/-- Witness for C7: a one-series engine where the destination is missing, and
a two-series engine whose source already has the rule. -/
theorem claim_C7_witness :
    engineCreateRule (Engine.mk [("tester", mkSeries [] 0 360)])
        "tester" "tester_agg_max_10" .max 10 = .error .noSuchSeries ∧
    engineCreateRule
        (Engine.mk [("tester", Series.mk [] 0 360 [] [⟨"tester_agg_max_10", .max, 10, none⟩]),
          ("tester_agg_max_10", mkSeries [] 0 360)])
        "tester" "tester_agg_max_10" .max 10 = .error .ruleExists := by
  constructor
  · exact (claim_C7_createrule_errors _ "tester" "tester_agg_max_10" .max 10).1 (by decide)
  · exact (claim_C7_createrule_errors _ "tester" "tester_agg_max_10" .max 10).2
      (Series.mk [] 0 360 [] [⟨"tester_agg_max_10", .max, 10, none⟩])
      (by decide) ⟨mkSeries [] 0 360, by decide⟩ (by decide)

/-! Lemmas for the dangling-rule claim. -/

theorem lookupKey_updateKey_none {l : List (String × Series)} {k k2 : String}
    {s2 : Series} (h : lookupKey l k2 = none) :
    lookupKey (updateKey l k s2) k2 = none := by
  induction l with
  | nil => rfl
  | cons a rest ih =>
      rw [lookupKey] at h
      by_cases ha : a.1 = k2
      · rw [if_pos ha] at h
        cases h
      · rw [if_neg ha] at h
        rw [updateKey, List.map_cons]
        by_cases hk : a.1 = k
        · rw [if_pos hk, lookupKey, if_neg (hk ▸ ha)]
          exact ih h
        · rw [if_neg hk, lookupKey, if_neg ha]
          exact ih h

theorem updateKey_updateKey (l : List (String × Series)) (k : String) (s2 : Series) :
    updateKey (updateKey l k s2) k s2 = updateKey l k s2 := by
  rw [updateKey, updateKey, List.map_map]
  apply List.map_congr_left
  intro p hp
  by_cases hpk : p.1 = k <;> simp [Function.comp, hpk]

theorem fanout_skip (base : List (String × Series)) (t : Nat) (v : ℚ) :
    ∀ (rules : List Rule) (acc : List Rule),
      (∀ r ∈ rules, lookupKey base r.destKey = none) →
      rules.foldl (fun (acc2 : List (String × Series) × List Rule) r =>
        match lookupKey acc2.1 r.destKey with
        | none => (acc2.1, acc2.2 ++ [r])
        | some d =>
            let q := onSample r.agg r.bucketSize (r.ctx, d) t v
            (updateKey acc2.1 r.destKey q.2,
             acc2.2 ++ [⟨r.destKey, r.agg, r.bucketSize, q.1⟩])) (base, acc) =
      (base, acc ++ rules) := by
  intro rules
  induction rules with
  | nil =>
      intro acc _
      simp
  | cons r rs ih =>
      intro acc h
      rw [List.foldl_cons]
      have hr := h r (List.mem_cons_self r rs)
      simp only [hr]
      rw [ih (acc ++ [r]) (fun r2 hr2 => h r2 (List.mem_cons_of_mem r hr2))]
      simp

/-- C9: after the destination series of a compaction rule has been deleted,
appends to the source still succeed - every dangling rule is skipped, the rule
list is unchanged, and the source's own samples are stored normally. -/
theorem claim_C9_dangling_rules (e : Engine) (src : String) (s : Series)
    (t : Nat) (v : ℚ)
    (hs : lookupKey e.series src = some s)
    (hret : s.retentionSecs = 0)
    (hdang : ∀ r ∈ s.rules, lookupKey e.series r.destKey = none)
    (hlt : ∀ p ∈ s.samples.getLast?, p.1 < t) :
    engineAdd e src t v =
      .ok { series := updateKey e.series src { s with samples := s.samples ++ [(t, v)] } } := by
  have happ : seriesAppend s t v = .ok { s with samples := s.samples ++ [(t, v)] } :=
    seriesAppend_mono s (t, v) hlt hret
  simp only [engineAdd, hs, happ]
  rw [fanout_skip (updateKey e.series src { s with samples := s.samples ++ [(t, v)] }) t v
    ({ s with samples := s.samples ++ [(t, v)] } : Series).rules []
    (fun r hr => lookupKey_updateKey_none (hdang r hr))]
  rw [List.nil_append, updateKey_updateKey]

/-- Witness for C9: a single-series engine whose only rule points at the
deleted key gone; the append still succeeds and stores the sample. -/
theorem claim_C9_witness :
    engineAdd
      (Engine.mk [("tester", Series.mk [] 0 360 [] [⟨"gone", .avg, 10, none⟩])])
      "tester" 5 7 =
    .ok (Engine.mk (updateKey
      [("tester", Series.mk [] 0 360 [] [⟨"gone", .avg, 10, none⟩])] "tester"
      (Series.mk [] 0 360 ([] ++ [(5, 7)]) [⟨"gone", .avg, 10, none⟩]))) :=
  claim_C9_dangling_rules _ "tester"
    (Series.mk [] 0 360 [] [⟨"gone", .avg, 10, none⟩]) 5 7
    (by decide) rfl (by decide) (by simp)

end TSDB
